import Mathlib

/-!
# Verification of the retrieval / ranking core (`src/lib/kb.ts`)

This file gives a shallow embedding in Lean 4 of the knowledge-base
retrieval and maintenance core of the repository (the second, current
revision of `src/lib/kb.ts`), and proves or refutes the frozen claims
about it.

Modelling conventions:
* JavaScript numbers are modelled as exact rationals (`ℚ`).  The one
  operation with no exact rational counterpart, `Math.sqrt`, is taken as
  an explicit function parameter `sqrt : ℚ → ℚ`; every theorem that
  involves it is quantified over `sqrt` (so it holds in particular for
  the real square root), and closed statements instantiate it with
  `ratSqrt`, a stand-in that is exact on perfect squares and whose value
  is irrelevant at the inputs used.
* Strings are Lean `String`s; the two regex-based rewriters
  (`applyAliases`, `normalizeVendorNames`) are implemented as
  character-level scanners that follow the JavaScript regex semantics
  (case-insensitive, global, word-boundary anchored, leftmost match,
  alternatives tried in order, greedy optional parts with backtracking).
* `undefined`/optional fields are `Option`s; JavaScript string
  truthiness (`""` is falsy) is `jsTruthy`.
* `fetch`/`JSON.parse` outcomes for the corpus load are modelled by the
  inductive `FetchOutcome`; an exception escaping to the caller is the
  `Except.error` case.
-/

/-- JavaScript whitespace (`\s`) restricted to the ASCII range:
space, tab, line feed, carriage return, vertical tab, form feed. -/
def isWsChar (c : Char) : Bool :=
  c == ' ' || c == '\t' || c == '\n' || c == '\r' || c == '\x0b' || c == '\x0c'

/-- JavaScript word characters (`\w` = `[A-Za-z0-9_]`), used for `\b`
word boundaries. -/
def isWordChar (c : Char) : Bool :=
  (c.isAlpha && c.toNat < 128) || c.isDigit || c == '_'

/-- Case-insensitive character comparison against a lowercase pattern
character (the `i` flag of the source regexes). -/
def lowEq (c : Char) (d : Char) : Bool := c.toLower == d

/-- Scanner for `replace(/\s+/g, " ")`: the first whitespace character
of a run becomes a single space, the rest of the run is dropped
(`prevWs` records whether the previous character was whitespace). -/
def collapseWsGo (prevWs : Bool) : List Char → List Char
  | [] => []
  | c :: rest =>
    if isWsChar c then
      if prevWs then collapseWsGo true rest
      else ' ' :: collapseWsGo true rest
    else c :: collapseWsGo false rest

/-- `replace(/\s+/g, " ")`: collapse every maximal whitespace run to a
single space. -/
def collapseWs (l : List Char) : List Char := collapseWsGo false l

/-- `String.prototype.trim()`: drop leading and trailing whitespace. -/
def trimWs (l : List Char) : List Char :=
  ((l.dropWhile isWsChar).reverse.dropWhile isWsChar).reverse

/-- The replacement text of `applyAliases`. -/
def aliasRepl : List Char := "licensed social workers".toList

/-- Head of the remaining input is a word character (negation of an
end-of-match `\b` boundary). -/
def headIsWord : List Char → Bool
  | [] => false
  | c :: _ => isWordChar c

/-- Attempt to match `lsws?\b` (the part of `/\blsws?\b/i` after the
leading boundary) at the start of `l`; on success return the remaining
input.  The optional `s` is greedy: `lsws` is preferred, with fallback
to `lsw`, each followed by a `\b` check on the original input. -/
def tryAlias (l : List Char) : Option (List Char) :=
  match l with
  | c :: s :: w :: rest2 =>
    if lowEq c 'l' && lowEq s 's' && lowEq w 'w' then
      match rest2 with
      | s2 :: rest3 =>
        if lowEq s2 's' && !headIsWord rest3 then some rest3
        else if !isWordChar s2 then some rest2
        else none
      | [] => some []
    else none
  | _ => none

theorem tryAlias_length {l r : List Char} (h : tryAlias l = some r) :
    r.length < l.length := by
  unfold tryAlias at h
  repeat' split at h
  all_goals simp_all
  all_goals omega

/-- Scanner for `applyAliases`:
`text.replace(/\blsws?\b/gi, "licensed social workers")`.
`prev` records whether the previous character of the original string is
a word character (for the leading `\b`).  The scanner recurses on a
fuel argument so that it is structurally recursive; every iteration
consumes at least one input character (`tryAlias_length`), so the fuel
`l.length` never runs out and the fuel-exhaustion branch is dead code. -/
def applyAliasesGo (fuel : Nat) (prev : Bool) (l : List Char) : List Char :=
  match fuel, l with
  | _, [] => []
  | 0, rest => rest
  | fuel + 1, c :: rest =>
    if prev then c :: applyAliasesGo fuel (isWordChar c) rest
    else
      match tryAlias (c :: rest) with
      | some rem => aliasRepl ++ applyAliasesGo fuel true rem
      | none => c :: applyAliasesGo fuel (isWordChar c) rest

/-- `applyAliases` from `src/lib/kb.ts`: expand the abbreviation
`lsw`/`lsws` (as a whole word, case-insensitively) to
"licensed social workers".  `(text || "")` is handled by the callers
passing a defaulted string. -/
def applyAliases (s : String) : String :=
  ⟨applyAliasesGo s.toList.length false s.toList⟩

/-- `norm` from `src/lib/kb.ts`:
`applyAliases((s ?? "").toString()).replace(/\s+/g, " ").trim()`. -/
def norm (s : String) : String := ⟨trimWs (collapseWs (applyAliases s).toList)⟩

/-- `trim()` on a `String` with the JavaScript whitespace set. -/
def strTrim (s : String) : String := ⟨trimWs s.toList⟩

/-- `toLowerCase()` (ASCII range, matching the source's data). -/
def strToLower (s : String) : String := ⟨s.toList.map Char.toLower⟩

/-- Match a literal pattern (given lowercase) case-insensitively at the
start of the input; return the remainder on success. -/
def matchCI (pat : List Char) (l : List Char) : Option (List Char) :=
  match pat, l with
  | [], rest => some rest
  | _ :: _, [] => none
  | p :: ps, c :: cs => if lowEq c p then matchCI ps cs else none

/-- `\s*`: greedily drop whitespace. -/
def dropWs (l : List Char) : List Char := l.dropWhile isWsChar

/-- `\s+`: require at least one whitespace character, then drop the
whole run. -/
def matchWs1 (l : List Char) : Option (List Char) :=
  match l with
  | c :: cs => if isWsChar c then some (cs.dropWhile isWsChar) else none
  | [] => none

/-- A `\b` boundary holds after a word character when the remaining
input is empty or starts with a non-word character. -/
def nonWordBoundary : List Char → Bool
  | [] => true
  | c :: _ => !isWordChar c

/-- Enforce the trailing `\b` of `/\b(...)\b/` on an alternative's
remainder; on failure the regex engine backtracks, i.e. the attempt
fails. -/
def withB (r : Option (List Char)) : Option (List Char) :=
  match r with
  | some rem => if nonWordBoundary rem then some rem else none
  | none => none

/-- JavaScript `.` (no `s` flag): any character except a line
terminator. -/
def jsDot (c : Char) : Bool := c != '\n' && c != '\r'

/-- `\s*HealthWorks` (case-insensitive). -/
def matchHW (l : List Char) : Option (List Char) :=
  matchCI "healthworks".toList (dropWs l)

/-- One-character attempt for the greedy `.?` of alternative 1:
`H` consumed, then any non-line-terminator, then `C\\s*HealthWorks`
and the trailing `\\b`. -/
def vmAlt1one (cs : List Char) : Option (List Char) :=
  match cs with
  | d :: e :: es => if jsDot d && lowEq e 'c' then withB (matchHW es) else none
  | _ => none

/-- Zero-character attempt for the `.?` of alternative 1. -/
def vmAlt1zero (cs : List Char) : Option (List Char) :=
  match cs with
  | e :: es => if lowEq e 'c' then withB (matchHW es) else none
  | [] => none

/-- Alternative 1 of `normalizeVendorNames`: `H.?C\\s*HealthWorks`
followed by the trailing `\\b`; the optional `.` is greedy with
backtracking. -/
def vmAlt1 (l : List Char) : Option (List Char) :=
  match l with
  | [] => none
  | c :: cs =>
    if lowEq c 'h' then (vmAlt1one cs).orElse (fun _ => vmAlt1zero cs)
    else none

/-- Alternative 2: `HMC\\s*HealthWorks` with the trailing `\\b`
(subsumed by alternative 1, kept for fidelity to the source). -/
def vmAlt2 (l : List Char) : Option (List Char) :=
  withB ((matchCI "hmc".toList l).bind matchHW)

/-- Alternative 3: `HMC\\b` (the inner and the trailing `\\b` coincide). -/
def vmAlt3 (l : List Char) : Option (List Char) :=
  withB (matchCI "hmc".toList l)

/-- Alternative 4: `IBH\\b`. -/
def vmAlt4 (l : List Char) : Option (List Char) :=
  withB (matchCI "ibh".toList l)

/-- Alternative 5: `Claremont\\s+Behavioral\\s+Health` with the trailing
`\\b`. -/
def vmAlt5 (l : List Char) : Option (List Char) :=
  withB (((((matchCI "claremont".toList l).bind matchWs1).bind
    (matchCI "behavioral".toList)).bind matchWs1).bind
    (matchCI "health".toList))

/-- Try the five alternatives of
`/\\b(H.?C\\s*HealthWorks|HMC\\s*HealthWorks|HMC\\b|IBH\\b|Claremont\\s+Behavioral\\s+Health)\\b/i`
in order at the current position (the leading `\\b` is checked by the
scanner). -/
def vmMatch (l : List Char) : Option (List Char) :=
  (((vmAlt1 l).orElse (fun _ => vmAlt2 l)).orElse (fun _ => vmAlt3 l)).orElse
    (fun _ => (vmAlt4 l).orElse (fun _ => vmAlt5 l))

theorem orElse_some {α : Type} {a : Option α} {f : Unit → Option α} {r : α}
    (h : a.orElse f = some r) : a = some r ∨ f () = some r := by
  cases a <;> simp_all [Option.orElse]

theorem matchCI_length {pat l r : List Char} (h : matchCI pat l = some r) :
    r.length + pat.length = l.length := by
  induction pat generalizing l with
  | nil => unfold matchCI at h; cases h; simp
  | cons p ps ih =>
    match l with
    | [] => simp [matchCI] at h
    | c :: cs =>
      by_cases hc : lowEq c p
      · simp only [matchCI, hc, if_pos] at h
        have := ih h
        simp [List.length_cons]
        omega
      · simp [matchCI, hc] at h

theorem dropWs_length (l : List Char) : (dropWs l).length ≤ l.length :=
  (List.dropWhile_sublist _).length_le

theorem matchWs1_length {l r : List Char} (h : matchWs1 l = some r) :
    r.length < l.length := by
  match l with
  | [] => simp [matchWs1] at h
  | c :: cs =>
    by_cases hc : isWsChar c
    · simp only [matchWs1, hc, if_pos] at h
      cases h
      exact Nat.lt_succ_of_le (List.dropWhile_sublist _).length_le
    · simp [matchWs1, hc] at h

theorem matchHW_length {l r : List Char} (h : matchHW l = some r) :
    r.length < l.length := by
  unfold matchHW at h
  have h1 := matchCI_length h
  have h2 := dropWs_length l
  simp at h1
  omega

theorem withB_some {o : Option (List Char)} {r : List Char}
    (h : withB o = some r) : o = some r := by
  match o with
  | none => simp [withB] at h
  | some rem =>
    by_cases hb : nonWordBoundary rem
    · simpa [withB, hb] using h
    · simp [withB, hb] at h

theorem whwB_length {l r : List Char} (h : withB (matchHW l) = some r) :
    r.length < l.length :=
  matchHW_length (withB_some h)

theorem vmAlt1one_length {cs r : List Char} (h : vmAlt1one cs = some r) :
    r.length < cs.length := by
  match cs with
  | [] => simp [vmAlt1one] at h
  | [d] => simp [vmAlt1one] at h
  | d :: e :: es =>
    by_cases hc : jsDot d && lowEq e 'c'
    · simp only [vmAlt1one, hc, if_pos] at h
      have := whwB_length h
      simp [List.length_cons]
      omega
    · simp [vmAlt1one, hc] at h

theorem vmAlt1zero_length {cs r : List Char} (h : vmAlt1zero cs = some r) :
    r.length < cs.length := by
  match cs with
  | [] => simp [vmAlt1zero] at h
  | e :: es =>
    by_cases hc : lowEq e 'c'
    · simp only [vmAlt1zero, hc, if_pos] at h
      have := whwB_length h
      simp [List.length_cons]
      omega
    · simp [vmAlt1zero, hc] at h

theorem vmAlt1_length {l r : List Char} (h : vmAlt1 l = some r) :
    r.length < l.length := by
  match l with
  | [] => simp [vmAlt1] at h
  | c :: cs =>
    by_cases hc : lowEq c 'h'
    · simp only [vmAlt1, hc, if_pos] at h
      rcases orElse_some h with h1 | h1
      · have := vmAlt1one_length h1
        simp [List.length_cons]
        omega
      · have := vmAlt1zero_length h1
        simp [List.length_cons]
        omega
    · simp [vmAlt1, hc] at h

theorem vmAlt2_length {l r : List Char} (h : vmAlt2 l = some r) :
    r.length < l.length := by
  unfold vmAlt2 at h
  have h' := withB_some h
  match hm : matchCI "hmc".toList l with
  | some m =>
    rw [hm] at h'
    simp only [Option.some_bind] at h'
    have h1 := matchCI_length hm
    have h2 := matchHW_length h'
    simp at h1
    omega
  | none => rw [hm] at h'; simp at h'

theorem vmAlt3_length {l r : List Char} (h : vmAlt3 l = some r) :
    r.length < l.length := by
  unfold vmAlt3 at h
  have h' := withB_some h
  have := matchCI_length h'
  simp at this
  omega

theorem vmAlt4_length {l r : List Char} (h : vmAlt4 l = some r) :
    r.length < l.length := by
  unfold vmAlt4 at h
  have h' := withB_some h
  have := matchCI_length h'
  simp at this
  omega

theorem vmAlt5_length {l r : List Char} (h : vmAlt5 l = some r) :
    r.length < l.length := by
  unfold vmAlt5 at h
  have h' := withB_some h
  match h1 : matchCI "claremont".toList l with
  | none => rw [h1] at h'; simp at h'
  | some m1 =>
    rw [h1] at h'
    simp only [Option.some_bind] at h'
    match h2 : matchWs1 m1 with
    | none => rw [h2] at h'; simp at h'
    | some m2 =>
      rw [h2] at h'
      simp only [Option.some_bind] at h'
      match h3 : matchCI "behavioral".toList m2 with
      | none => rw [h3] at h'; simp at h'
      | some m3 =>
        rw [h3] at h'
        simp only [Option.some_bind] at h'
        match h4 : matchWs1 m3 with
        | none => rw [h4] at h'; simp at h'
        | some m4 =>
          rw [h4] at h'
          simp only [Option.some_bind] at h'
          have l1 := matchCI_length h1
          have l2 := matchWs1_length h2
          have l3 := matchCI_length h3
          have l4 := matchWs1_length h4
          have l5 := matchCI_length h'
          simp at l1 l3 l5
          omega

theorem vmMatch_length {l r : List Char} (h : vmMatch l = some r) :
    r.length < l.length := by
  unfold vmMatch at h
  rcases orElse_some h with h1 | h1
  · rcases orElse_some h1 with h2 | h2
    · rcases orElse_some h2 with h3 | h3
      · exact vmAlt1_length h3
      · exact vmAlt2_length h3
    · exact vmAlt3_length h2
  · rcases orElse_some h1 with h2 | h2
    · exact vmAlt4_length h2
    · exact vmAlt5_length h2

/-- The replacement text `"Uprise Health"`. -/
def upriseRepl : List Char := "Uprise Health".toList

/-- Scanner for `normalizeVendorNames`: global, case-insensitive,
word-boundary-anchored replacement of legacy vendor names by
`"Uprise Health"`.  `prev` tracks whether the previous original
character is a word character (leading `\b`: every alternative starts
with a word character, so a match can start only after a non-word
character or at the start).  As with `applyAliasesGo`, the fuel
`l.length` suffices because every match consumes at least one input
character (`vmMatch_length`). -/
def nvnGo (fuel : Nat) (prev : Bool) (l : List Char) : List Char :=
  match fuel, l with
  | _, [] => []
  | 0, rest => rest
  | fuel + 1, c :: rest =>
    if prev then c :: nvnGo fuel (isWordChar c) rest
    else
      match vmMatch (c :: rest) with
      | some rem => upriseRepl ++ nvnGo fuel true rem
      | none => c :: nvnGo fuel (isWordChar c) rest

/-- `normalizeVendorNames` from `src/lib/kb.ts`:
rewrite legacy vendor aliases to `"Uprise Health"`; the empty string is
returned unchanged (`if (!text) return text`). -/
def normalizeVendorNames (s : String) : String :=
  if s = "" then s else ⟨nvnGo s.toList.length false s.toList⟩

/-- Whole-string match of `n\s*a`. -/
def nsaForm (l : List Char) : Bool :=
  match l with
  | 'n' :: rest => rest.dropWhile isWsChar == ['a']
  | _ => false

/-- Whole-string match of the placeholder alternation of
`isGarbageAnswer`: `n/a`, `na`, `none`, `null`, `tbd`, `n\s*a`,
`n` `-?` `/` `-?` `a`, or a bare hyphen (the input is already
lowercased). -/
def placeholderForm (t : String) : Bool :=
  t == "n/a" || t == "na" || t == "none" || t == "null" || t == "tbd" ||
    nsaForm t.toList ||
    t == "n-/a" || t == "n/-a" || t == "n-/-a" || t == "-"

/-- Whole-string match of `^[a-z]$`. -/
def singleLowercaseLetter (t : String) : Bool :=
  match t.toList with
  | [c] => 'a' ≤ c && c ≤ 'z'
  | _ => false

/-- Substring match of `/lorem ipsum|dummy|test/i` (input lowercased,
so the `i` flag is absorbed). -/
def containsBoilerplate (t : String) : Bool :=
  decide ("lorem ipsum".toList <:+: t.toList) ||
    decide ("dummy".toList <:+: t.toList) ||
    decide ("test".toList <:+: t.toList)

/-- Character class of `^([.,;:!?()\[\]\-_/\\\s])+$`. -/
def isPunctWs (c : Char) : Bool :=
  c == '.' || c == ',' || c == ';' || c == ':' || c == '!' || c == '?' ||
    c == '(' || c == ')' || c == '[' || c == ']' || c == '-' || c == '_' ||
    c == '/' || c == '\\' || isWsChar c

/-- `isGarbageAnswer` from `src/lib/kb.ts`: the hygiene predicate used
by the Maintenance pass (rules checked in source order with early
return). -/
def isGarbageAnswer (a : String) : Bool :=
  let t := strToLower (norm a)
  if t == "" then true
  else if t.length < 2 then true
  else if placeholderForm t then true
  else if singleLowercaseLetter t then true
  else if containsBoilerplate t then true
  else if t.toList != [] && t.toList.all isPunctWs then true
  else false

/-- The `kind` discriminator of a knowledge record. -/
inductive KBKind
  | qa
  | context
deriving DecidableEq, Repr

/-- The `embedding` field: absent, a numeric array, or a JSON-encoded
string.  `JSON.parse` of the string form is abstracted by carrying its
outcome: `str none` is a string that fails to parse (or parses to a
non-array), `str (some xs)` one that parses to a numeric array.
Element coercion `Number(n) || 0` is absorbed by modelling elements as
rationals. -/
inductive EmbField
  | absent
  | arr (xs : List ℚ)
  | str (parsed : Option (List ℚ))
deriving DecidableEq, Repr

/-- `KBItem` from `src/lib/kb.ts` (the open index signature for legacy
extra fields is elided; `source` stands for the provenance fields,
which retrieval and sanitization never inspect except through the
record identity). -/
structure KBItem where
  kind : Option KBKind
  question : Option String
  answer : Option String
  content : Option String
  embedding : EmbField
  source : Option String
deriving DecidableEq, Repr

/-- The embedding-parsing prelude of the scoring map:
`typeof e === "string"` → `JSON.parse` (falling back to `[]`), then
`Array.isArray(e) ? e.map(Number||0) : []`. -/
def parseEmb : EmbField → List ℚ
  | .absent => []
  | .arr xs => xs
  | .str none => []
  | .str (some xs) => xs

/-- JavaScript truthiness of an optional string (`undefined` and `""`
are falsy). -/
def jsTruthy (o : Option String) : Bool :=
  match o with
  | some s => s != ""
  | none => false

/-- JavaScript `a || b` on optional strings. -/
def jsOr (a b : Option String) : Option String :=
  if jsTruthy a then a else b

/-- `isQaKind`: `(item.kind ?? "qa") === "qa"`. -/
def isQaKindB (x : KBItem) : Bool := (x.kind.getD .qa) == .qa

/-- `isContextKind`: `item.kind === "context"`. -/
def isContextKindB (x : KBItem) : Bool := x.kind == some .context

/-- `replace(/\s+/g, '')` from the `string-similarity` package:
remove all whitespace. -/
def stripWsAll (s : String) : List Char := s.toList.filter (fun c => !isWsChar c)

/-- The list of adjacent character pairs (the bigram multiset). -/
def bigrams : List Char → List (Char × Char)
  | c :: d :: rest => (c, d) :: bigrams (d :: rest)
  | _ => []

/-- The second loop of `compareTwoStrings`: count the multiset
intersection of bigrams (the `Map` of counts is modelled by a list
from which matched bigrams are erased one occurrence at a time). -/
def diceLoop (secondBgs remaining : List (Char × Char)) : Nat :=
  match secondBgs with
  | [] => 0
  | bg :: rest =>
    if remaining.contains bg then diceLoop rest (remaining.erase bg) + 1
    else diceLoop rest remaining

/-- `compareTwoStrings` from the `string-similarity` npm package used
by `scoreRowsForQuery` (Dice coefficient over character bigrams after
whitespace removal); modelled from the package's published source,
which is not part of this repository. -/
def compareTwoStrings (s1 s2 : String) : ℚ :=
  let first := stripWsAll s1
  let second := stripWsAll s2
  if first = second then 1
  else if first.length < 2 ∨ second.length < 2 then 0
  else
    let inter := diceLoop (bigrams second) (bigrams first)
    (2 * inter : ℚ) / ((first.length + second.length - 2 : Nat) : ℚ)

/-- The dot product accumulated by the loop of `cosine` (the loop runs
over `i < min |a| |b|`, which is exactly what `zip` produces). -/
def dotPrefix (a b : List ℚ) : ℚ := ((a.zip b).map (fun p => p.1 * p.2)).sum

/-- The `magA` accumulator of `cosine`. -/
def magSqA (a b : List ℚ) : ℚ := ((a.zip b).map (fun p => p.1 * p.1)).sum

/-- The `magB` accumulator of `cosine`. -/
def magSqB (a b : List ℚ) : ℚ := ((a.zip b).map (fun p => p.2 * p.2)).sum

/-- `cosine` from `src/lib/kb.ts`.  `Math.sqrt` is the parameter
`sqrt`; `x || 1` on the denominator replaces 0 by 1 (floats have no
other falsy number here, rationals none at all); `!a?.length` is the
emptiness test. -/
def cosine (sqrt : ℚ → ℚ) (a b : List ℚ) : ℚ :=
  if a.length = 0 ∨ b.length = 0 then 0
  else
    let dot := dotPrefix a b
    let mA := magSqA a b
    let mB := magSqB a b
    let d := sqrt mA * sqrt mB
    dot / (if d = 0 then 1 else d)

/-- The largest `k ≤ n` with `k * k ≤ n`, by a linear scan (chosen
over `Nat.sqrt` so that the kernel can evaluate it). -/
def natSqrtModel (n : Nat) : Nat :=
  (List.range (n + 1)).foldl (fun acc k => if k * k ≤ n then k else acc) 0

/-- A computable stand-in for the IEEE-754 `Math.sqrt`, exact on
perfect squares; closed statements use it only where the result is
independent of the value of `sqrt`, and theorems are quantified over
`sqrt`. -/
def ratSqrt (q : ℚ) : ℚ :=
  (natSqrtModel q.num.toNat : ℚ) / (natSqrtModel q.den : ℚ)

/-- A scored row (`KBScoredItem`): the spread `{...x}` with the
normalized text fields and the parsed embedding written back, plus the
three scores. -/
structure KBScored where
  kind : Option KBKind
  question : String
  answer : String
  content : String
  embedding : List ℚ
  source : Option String
  score : ℚ
  semanticScore : ℚ
  lexicalScore : ℚ
deriving DecidableEq, Repr

/-- The body of the `.map` inside `scoreRowsForQuery`: parse the
embedding, normalize the text fields, build the lexical text for the
mode, and compute the semantic, lexical, and fused scores.  `qNorm` is
the pre-lowercased query text computed once by `scoreRowsForQuery`. -/
def scoreRow (sqrt : ℚ → ℚ) (queryEmbedding : List ℚ) (qNorm : String)
    (mode : KBKind) (x : KBItem) : KBScored :=
  let e := parseEmb x.embedding
  let question := norm (x.question.getD "")
  let answer := normalizeVendorNames (norm (x.answer.getD ""))
  let content := norm (x.content.getD "")
  let lexicalText : String :=
    if mode = .qa then question ++ " " ++ answer
    else if content != "" then content
    else if answer != "" then answer
    else if question != "" then question
    else ""
  let embeddingArray := e
  let n := min queryEmbedding.length embeddingArray.length
  let semantic :=
    if queryEmbedding.length > 0 ∧ embeddingArray.length > 0 then
      cosine sqrt (queryEmbedding.take n) (embeddingArray.take n)
    else 0
  let lexical :=
    if qNorm != "" then compareTwoStrings qNorm (strToLower (norm lexicalText))
    else 0
  let finalScore :=
    if embeddingArray.length > 0 ∧ queryEmbedding.length > 0 then
      (7 / 10 : ℚ) * semantic + (3 / 10 : ℚ) * lexical
    else lexical
  { kind := x.kind, question := question, answer := answer,
    content := content, embedding := embeddingArray, source := x.source,
    score := finalScore, semanticScore := semantic,
    lexicalScore := lexical }

/-- The comparator `(a, b) => (b.score || 0) - (a.score || 0)`:
`a` sorts no later than `b` exactly when `b.score ≤ a.score`
(descending; `score` is always set, so `|| 0` is the identity). -/
def scoreLe (u v : KBScored) : Bool := decide (v.score ≤ u.score)

/-- `scoreRowsForQuery` from `src/lib/kb.ts`: map every row to a
scored row, then sort descending by score.  `Array.prototype.sort` is
stable (ECMA-262), which `List.mergeSort` models. -/
def scoreRowsForQuery (sqrt : ℚ → ℚ) (rows : List KBItem)
    (queryEmbedding : List ℚ) (queryText : Option String)
    (mode : KBKind) : List KBScored :=
  let qNorm := strToLower (norm (queryText.getD ""))
  (rows.map (scoreRow sqrt queryEmbedding qNorm mode)).mergeSort scoreLe

/-- The QA preparation map of `retrieveMatchesWithContext`. -/
def prepQa (x : KBItem) : KBItem :=
  { x with answer := some (normalizeVendorNames (norm (x.answer.getD ""))),
           question := some (norm (x.question.getD "")) }

/-- The QA eligibility filter of `retrieveMatchesWithContext`:
`x.answer && x.answer.trim().length > 0 && x.answer.trim().length >= 3`. -/
def qaUsable (x : KBItem) : Bool :=
  jsTruthy x.answer &&
    decide ((strTrim (x.answer.getD "")).length > 0) &&
    decide ((strTrim (x.answer.getD "")).length ≥ 3)

/-- The context preparation map of `retrieveMatchesWithContext`:
`content: norm(x.content || x.answer || x.question)`. -/
def prepCtx (x : KBItem) : KBItem :=
  { x with content := some (norm ((jsOr x.content (jsOr x.answer x.question)).getD "")) }

/-- The context eligibility filter:
`x.content && x.content.trim().length > 0`. -/
def ctxUsable (x : KBItem) : Bool :=
  jsTruthy x.content && decide ((strTrim (x.content.getD "")).length > 0)

/-- The result shape of `retrieveMatchesWithContext`. -/
structure RetrieveResult where
  qaMatches : List KBScored
  contextMatches : List KBScored
deriving DecidableEq, Repr

/-- `qaRaw.map(...).filter(...)` of `retrieveMatchesWithContext`:
the prepared, retrieval-eligible QA partition. -/
def qaPrepared (kb : List KBItem) : List KBItem :=
  ((kb.filter isQaKindB).map prepQa).filter qaUsable

/-- `ctxRaw.map(...).filter(...)` of `retrieveMatchesWithContext`:
the prepared, retrieval-eligible context partition. -/
def ctxPrepared (kb : List KBItem) : List KBItem :=
  ((kb.filter isContextKindB).map prepCtx).filter ctxUsable

/-- The body of `retrieveMatchesWithContext` after the corpus has been
loaded: partition by kind, normalize and filter each partition, score
and sort, truncate with `slice(0, Math.min(limit, length))`, guarding
each partition with `prepared.length ? ... : []`. -/
def retrieveFromKb (sqrt : ℚ → ℚ) (kb : List KBItem)
    (queryEmbedding : List ℚ) (qaLimit contextLimit : Nat)
    (queryText : Option String) : RetrieveResult :=
  if kb.length = 0 then ⟨[], []⟩
  else
    let qaScored :=
      if (qaPrepared kb).length ≠ 0 then
        (scoreRowsForQuery sqrt (qaPrepared kb) queryEmbedding queryText .qa).take
          (min qaLimit (qaPrepared kb).length)
      else []
    let ctxScored :=
      if (ctxPrepared kb).length ≠ 0 then
        (scoreRowsForQuery sqrt (ctxPrepared kb) queryEmbedding queryText .context).take
          (min contextLimit (ctxPrepared kb).length)
      else []
    ⟨qaScored, ctxScored⟩

/-- Outcome of the `fetch` + `res.text()` + `JSON.parse` sequence in
`loadKb`:
* `netError`   – the awaited `fetch` (or body read) rejects;
* `httpError`  – a response with `res.ok` false;
* `badJson`    – a body on which `JSON.parse` throws;
* `nonArrayJson` – a body parsing to a non-array value;
* `arrayJson items` – a body parsing to an array of records. -/
inductive FetchOutcome
  | netError
  | httpError
  | badJson
  | nonArrayJson
  | arrayJson (items : List KBItem)

/-- `loadKb` from `src/lib/kb.ts`.  The function has no try/catch
around the `fetch` itself, so a rejected fetch propagates
(`Except.error`); a non-ok response returns `[]`; the `JSON.parse` is
wrapped in try/catch returning `[]`; a parsed non-array returns `[]`
(`Array.isArray(parsed) ? parsed : []`). -/
def loadKb : FetchOutcome → Except Unit (List KBItem)
  | .netError => .error ()
  | .httpError => .ok []
  | .badJson => .ok []
  | .nonArrayJson => .ok []
  | .arrayJson items => .ok items

/-- `retrieveMatchesWithContext` from `src/lib/kb.ts`: await `loadKb`
(an exception from it propagates — there is no try/catch), then filter,
score, and truncate. -/
def retrieveMatchesWithContext (sqrt : ℚ → ℚ) (outcome : FetchOutcome)
    (queryEmbedding : List ℚ) (qaLimit contextLimit : Nat)
    (queryText : Option String) : Except Unit RetrieveResult :=
  (loadKb outcome).map
    (fun kb => retrieveFromKb sqrt kb queryEmbedding qaLimit contextLimit queryText)

/-- The dedup key of `sanitizeKb`:
`` `${String(x.question || "").toLowerCase()}|${String(x.answer || "").toLowerCase()}` ``. -/
def dedupKey (x : KBItem) : String :=
  strToLower (x.question.getD "") ++ "|" ++ strToLower (x.answer.getD "")

/-- Step 1 of `sanitizeKb` on the QA partition: normalize the question
and answer, then apply the hard filters (`x.question && x.answer &&
!isGarbageAnswer(x.answer) && x.answer.length >= minAnswerLen`). -/
def sanitizePre (minAnswerLen : Nat) (items : List KBItem) : List KBItem :=
  ((items.filter isQaKindB).map
      (fun x => { x with
        question := some (norm (x.question.getD "")),
        answer := some (normalizeVendorNames (norm (x.answer.getD ""))) })).filter
    (fun x => jsTruthy x.question && jsTruthy x.answer &&
      !isGarbageAnswer (x.answer.getD "") &&
      decide ((x.answer.getD "").length ≥ minAnswerLen))

/-- Step 2 of `sanitizeKb`: exact dedup keeping the first occurrence of
each key (the `Set` of seen keys is modelled by a list). -/
def dedupGo (seen : List String) : List KBItem → List KBItem
  | [] => []
  | it :: rest =>
    if seen.contains (dedupKey it) then dedupGo seen rest
    else it :: dedupGo (dedupKey it :: seen) rest

/-- One chunk step of `gptFilter`.  `resp ci` abstracts, for the
`ci`-th chunk of 50 records, the classifier's HTTP response after the
bracket isolation and `JSON.parse`: `none` when parsing throws (the
catch falls back to keeping the whole slice), `some ds` when it yields
an array whose elements have truthiness `ds`.  A record `slice[j]` is
kept exactly when `decisions[j]` is truthy (an index past the end of
the parsed array is `undefined`, i.e. falsy).  The fuel (initially the
number of items) makes the chunk loop structurally recursive; every
step consumes 50 items, so fuel never runs out. -/
def gptFilterGo (resp : Nat → Option (List Bool)) (fuel ci : Nat)
    (rest : List KBItem) : List KBItem :=
  match fuel, rest with
  | _, [] => []
  | 0, rest => rest
  | fuel + 1, rest =>
    let slice := rest.take 50
    let decisions : List Bool :=
      match resp ci with
      | none => slice.map (fun _ => true)
      | some ds => ds
    let kept := (slice.enum.filter (fun p => decisions.getD p.1 false)).map
      (fun p => p.2)
    kept ++ gptFilterGo resp fuel (ci + 1) (rest.drop 50)

/-- `gptFilter` from `src/lib/kb.ts` (the optional classifier pass),
processing the items in chunks of 50. -/
def gptFilter (resp : Nat → Option (List Bool)) (items : List KBItem) :
    List KBItem :=
  gptFilterGo resp items.length 0 items

/-- `sanitizeKb` from `src/lib/kb.ts`.  `opts.minAnswerLen ?? 8` is the
`minAnswerLen` option; `!opts.useGPT || !opts.openaiKey` uses string
truthiness of the key.  With the classifier disabled the function
returns the deduplicated QA records followed by the untouched context
records.  With the classifier enabled, however, the synchronous source
function assigns `cleanedQa` the un-awaited `Promise` returned by the
`async` `gptFilter` and then evaluates `[...cleanedQa,
...contextItems]`; spreading a `Promise` (which is not iterable)
throws a `TypeError`, so that path raises instead of returning —
modelled as `Except.error`.  The `resp` oracle parameterizes the
classifier responses that `gptFilter`'s own Promise would consume; on
the only branch that calls it the spread throws first, so the model
never reaches `gptFilter` here (the resolved value of `gptFilter`
itself is modelled separately above). -/
def sanitizeKb (items : List KBItem) (minAnswerLen : Option Nat)
    (useGPT : Bool) (openaiKey : Option String)
    (resp : Nat → Option (List Bool)) : Except Unit (List KBItem) :=
  let mal := minAnswerLen.getD 8
  let contextItems := items.filter isContextKindB
  let pre := sanitizePre mal items
  let dedup := dedupGo [] pre
  if !useGPT || !jsTruthy openaiKey then .ok (dedup ++ contextItems)
  else .error ()

/-- Sum of squares of a vector (the value of each `mag` accumulator on
the full vector). -/
def sumSq (a : List ℚ) : ℚ := (a.map (fun x => x * x)).sum

theorem zip_self_eq_map (a : List ℚ) : a.zip a = a.map (fun x => (x, x)) := by
  induction a with
  | nil => rfl
  | cons x xs ih => simp [List.zip_cons_cons, ih]

theorem dotPrefix_self (a : List ℚ) : dotPrefix a a = sumSq a := by
  simp only [dotPrefix, sumSq, zip_self_eq_map, List.map_map]
  congr 1

theorem magSqA_self (a : List ℚ) : magSqA a a = sumSq a := by
  simp only [magSqA, sumSq, zip_self_eq_map, List.map_map]
  congr 1

theorem magSqB_self (a : List ℚ) : magSqB a a = sumSq a := by
  simp only [magSqB, sumSq, zip_self_eq_map, List.map_map]
  congr 1

theorem dotPrefix_comm (a b : List ℚ) : dotPrefix a b = dotPrefix b a := by
  induction a generalizing b with
  | nil => cases b <;> simp [dotPrefix]
  | cons x xs ih =>
    cases b with
    | nil => simp [dotPrefix]
    | cons y ys =>
      simp only [dotPrefix, List.zip_cons_cons, List.map_cons, List.sum_cons]
      have := ih ys
      simp only [dotPrefix] at this
      rw [this, mul_comm]

theorem magSqA_swap (a b : List ℚ) : magSqA a b = magSqB b a := by
  induction a generalizing b with
  | nil => cases b <;> simp [magSqA, magSqB]
  | cons x xs ih =>
    cases b with
    | nil => simp [magSqA, magSqB]
    | cons y ys =>
      simp only [magSqA, magSqB, List.zip_cons_cons, List.map_cons, List.sum_cons]
      have := ih ys
      simp only [magSqA, magSqB] at this
      rw [this]

theorem sumSq_nonneg (a : List ℚ) : 0 ≤ sumSq a := by
  induction a with
  | nil => simp [sumSq]
  | cons x xs ih =>
    simp only [sumSq, List.map_cons, List.sum_cons]
    have : 0 ≤ x * x := mul_self_nonneg x
    simp only [sumSq] at ih
    linarith

theorem sumSq_pos (a : List ℚ) (h : ∃ x ∈ a, x ≠ 0) : 0 < sumSq a := by
  induction a with
  | nil => simp at h
  | cons y ys ih =>
    simp only [sumSq, List.map_cons, List.sum_cons]
    rcases h with ⟨x, hx, hxne⟩
    rcases List.mem_cons.mp hx with rfl | hmem
    · have h1 : 0 < x * x := mul_self_pos.mpr hxne
      have h2 : 0 ≤ sumSq ys := sumSq_nonneg ys
      simp only [sumSq] at h2
      linarith
    · have h1 : 0 < sumSq ys := ih ⟨x, hmem, hxne⟩
      have h2 : 0 ≤ y * y := mul_self_nonneg y
      simp only [sumSq] at h1
      linarith

theorem zip_take_min (a b : List ℚ) :
    (a.take (min a.length b.length)).zip (b.take (min a.length b.length)) =
      a.zip b := by
  induction a generalizing b with
  | nil => simp
  | cons x xs ih =>
    cases b with
    | nil => simp
    | cons y ys =>
      simp only [List.length_cons, Nat.succ_min_succ, List.take_succ_cons,
        List.zip_cons_cons]
      rw [ih ys]

theorem dotPrefix_nil_left (b : List ℚ) : dotPrefix [] b = 0 := by
  simp [dotPrefix]

theorem dotPrefix_nil_right (a : List ℚ) : dotPrefix a [] = 0 := by
  cases a <;> simp [dotPrefix]

theorem cosine_eq (sqrt : ℚ → ℚ) (a b : List ℚ)
    (h : ¬(a.length = 0 ∨ b.length = 0)) :
    cosine sqrt a b = dotPrefix a b /
      (if sqrt (magSqA a b) * sqrt (magSqB a b) = 0 then 1
       else sqrt (magSqA a b) * sqrt (magSqB a b)) := by
  unfold cosine
  rw [if_neg h]

theorem cosine_zero (sqrt : ℚ → ℚ) (a b : List ℚ)
    (h : a.length = 0 ∨ b.length = 0) : cosine sqrt a b = 0 := by
  unfold cosine
  rw [if_pos h]

/-- C6: the cosine-similarity function is total (it is a Lean function
on all pairs of rational vectors, with every list access inside the
`zip` in range): an empty vector on either side yields 0; mismatched
lengths are handled by truncating both vectors to the shared-length
prefix (truncating changes nothing); and the result is the prefix dot
product divided by a provably nonzero denominator (the `|| 1` guard
replaces a zero denominator by 1), so no division by zero occurs for
an all-zero vector. -/
theorem claim6_cosine_total (sqrt : ℚ → ℚ) (a b : List ℚ) :
    (a = [] ∨ b = [] → cosine sqrt a b = 0)
    ∧ cosine sqrt a b =
        cosine sqrt (a.take (min a.length b.length))
          (b.take (min a.length b.length))
    ∧ ∃ d : ℚ, d ≠ 0 ∧ cosine sqrt a b = dotPrefix a b / d := by
  refine ⟨?_, ?_, ?_⟩
  · rintro (rfl | rfl)
    · exact cosine_zero sqrt _ _ (Or.inl rfl)
    · exact cosine_zero sqrt _ _ (Or.inr rfl)
  · by_cases h : a.length = 0 ∨ b.length = 0
    · have h' : min a.length b.length = 0 := by omega
      rw [cosine_zero sqrt a b h, h']
      simp only [List.take_zero]
      rw [cosine_zero sqrt [] [] (Or.inl rfl)]
    · have h2 : ¬((a.take (min a.length b.length)).length = 0 ∨
          (b.take (min a.length b.length)).length = 0) := by
        simp only [List.length_take]
        omega
      rw [cosine_eq sqrt a b h, cosine_eq sqrt _ _ h2]
      have hz := zip_take_min a b
      simp only [dotPrefix, magSqA, magSqB, hz]
  · by_cases h : a.length = 0 ∨ b.length = 0
    · refine ⟨1, one_ne_zero, ?_⟩
      have hd : dotPrefix a b = 0 := by
        rcases h with h | h
        · rw [List.length_eq_zero.mp h, dotPrefix_nil_left]
        · rw [List.length_eq_zero.mp h, dotPrefix_nil_right]
      rw [cosine_zero sqrt a b h, hd, zero_div]
    · refine ⟨if sqrt (magSqA a b) * sqrt (magSqB a b) = 0 then 1
        else sqrt (magSqA a b) * sqrt (magSqB a b), ?_, cosine_eq sqrt a b h⟩
      split
      · exact one_ne_zero
      · assumption

/-- A closed instance of the empty-vector clause of C6 (discharges the
hypothesis of `claim6_cosine_total` at a concrete input). -/
theorem claim6_cosine_total_witness : cosine ratSqrt [] [1, 2] = 0 :=
  (claim6_cosine_total ratSqrt [] [1, 2]).1 (Or.inl rfl)

/-- C7: for non-zero vectors of equal length, cosine is symmetric, and
the self-similarity is exactly 1 (hence within any floating-point
tolerance of 1).  `sqrt` is any square-root function that is exact on
the squared magnitude of `a` — true of the real square root, since
`sumSq a ≥ 0`. -/
theorem claim7_cosine_symm (sqrt : ℚ → ℚ) (a b : List ℚ)
    (hlen : a.length = b.length)
    (ha : ∃ x ∈ a, x ≠ 0) (hb : ∃ x ∈ b, x ≠ 0)
    (hs : sqrt (sumSq a) * sqrt (sumSq a) = sumSq a) :
    cosine sqrt a b = cosine sqrt b a ∧ cosine sqrt a a = 1 := by
  constructor
  · by_cases h : a.length = 0 ∨ b.length = 0
    · rw [cosine_zero sqrt a b h, cosine_zero sqrt b a h.symm]
    · have h' : ¬(b.length = 0 ∨ a.length = 0) := fun hc => h hc.symm
      rw [cosine_eq sqrt a b h, cosine_eq sqrt b a h']
      rw [dotPrefix_comm a b, magSqA_swap a b, ← magSqA_swap b a,
        mul_comm (sqrt (magSqB b a)) (sqrt (magSqA b a))]
  · have hapos : 0 < sumSq a := sumSq_pos a ha
    have hane : a.length ≠ 0 := by
      rcases ha with ⟨x, hx, -⟩
      intro h0
      rw [List.length_eq_zero.mp h0] at hx
      simp at hx
    have h : ¬(a.length = 0 ∨ a.length = 0) := by
      intro hc
      exact hane (hc.elim id id)
    rw [cosine_eq sqrt a a h, dotPrefix_self, magSqA_self, magSqB_self, hs]
    rw [if_neg (ne_of_gt hapos)]
    exact div_self (ne_of_gt hapos)

/-- A closed instance of C7 at a concrete input (`ratSqrt` is exact on
the perfect square `sumSq [3,4] = 25`). -/
theorem ratSqrt_25 : ratSqrt 25 = 5 := by
  have h5 : natSqrtModel 25 = 5 := by decide
  have h1 : natSqrtModel 1 = 1 := by decide
  have hn : (25 : ℚ).num.toNat = 25 := rfl
  have hd : (25 : ℚ).den = 1 := rfl
  rw [ratSqrt, hn, hd, h5, h1]
  norm_num

theorem claim7_cosine_symm_witness :
    cosine ratSqrt [3, 4] [4, 3] = cosine ratSqrt [4, 3] [3, 4] ∧
      cosine ratSqrt [3, 4] [3, 4] = 1 :=
  claim7_cosine_symm ratSqrt [3, 4] [4, 3] (by decide)
    ⟨3, by decide, by decide⟩ ⟨4, by decide, by decide⟩
    (by
      have h1 : sumSq [3, 4] = 25 := by
        simp [sumSq]
        norm_num
      rw [h1, ratSqrt_25]
      norm_num)

/-- C2: the fused score is `0.7 * semanticScore + 0.3 * lexicalScore`
exactly when both the parsed candidate embedding and the query
embedding are non-empty, and otherwise is `lexicalScore` itself — the
semantic term is dropped, not scaled through the 0.7 weight. -/
theorem claim2_score_fusion (sqrt : ℚ → ℚ) (queryEmbedding : List ℚ)
    (qNorm : String) (mode : KBKind) (x : KBItem) :
    (parseEmb x.embedding ≠ [] → queryEmbedding ≠ [] →
      (scoreRow sqrt queryEmbedding qNorm mode x).score =
        7 / 10 * (scoreRow sqrt queryEmbedding qNorm mode x).semanticScore +
          3 / 10 * (scoreRow sqrt queryEmbedding qNorm mode x).lexicalScore)
    ∧ (parseEmb x.embedding = [] ∨ queryEmbedding = [] →
      (scoreRow sqrt queryEmbedding qNorm mode x).score =
        (scoreRow sqrt queryEmbedding qNorm mode x).lexicalScore) := by
  constructor
  · intro he hq
    have hcond : (parseEmb x.embedding).length > 0 ∧ queryEmbedding.length > 0 :=
      ⟨List.length_pos.mpr he, List.length_pos.mpr hq⟩
    simp only [scoreRow, if_pos hcond]
  · intro h
    have hcond : ¬((parseEmb x.embedding).length > 0 ∧ queryEmbedding.length > 0) := by
      rcases h with h | h <;> simp [h]
    simp only [scoreRow, if_neg hcond]

/-- A closed instance of C2's no-embedding fallback: a record whose
embedding is the empty array, queried with a non-empty embedding,
scores exactly its lexical score. -/
theorem claim2_score_fusion_witness :
    (scoreRow ratSqrt [1, 2] "how many clinicians" .qa
        ⟨some .qa, some "q", some "irrelevant text", none, .arr [], none⟩).score =
      (scoreRow ratSqrt [1, 2] "how many clinicians" .qa
        ⟨some .qa, some "q", some "irrelevant text", none, .arr [], none⟩).lexicalScore :=
  (claim2_score_fusion ratSqrt [1, 2] "how many clinicians" .qa
    ⟨some .qa, some "q", some "irrelevant text", none, .arr [], none⟩).2 (Or.inl rfl)

/-- C3 (amended): every corpus-load failure that `loadKb` handles — a
non-ok HTTP response, an unparseable JSON body, a parsed non-array
payload — and an empty loaded array all yield `{qaMatches: [],
contextMatches: []}` without an exception.  (A network-level rejection
of the `fetch` itself is NOT handled; see the counterexample.) -/
theorem claim3_load_failure_graceful (sqrt : ℚ → ℚ) (qEmb : List ℚ)
    (qaL cL : Nat) (qT : Option String) :
    retrieveMatchesWithContext sqrt .httpError qEmb qaL cL qT = .ok ⟨[], []⟩
    ∧ retrieveMatchesWithContext sqrt .badJson qEmb qaL cL qT = .ok ⟨[], []⟩
    ∧ retrieveMatchesWithContext sqrt .nonArrayJson qEmb qaL cL qT = .ok ⟨[], []⟩
    ∧ retrieveMatchesWithContext sqrt (.arrayJson []) qEmb qaL cL qT = .ok ⟨[], []⟩
    ∧ loadKb .httpError = .ok [] ∧ loadKb .badJson = .ok []
    ∧ loadKb .nonArrayJson = .ok [] :=
  ⟨rfl, rfl, rfl, rfl, rfl, rfl, rfl⟩

/-- C3 counterexample: a network/storage-level failure of the corpus
load (the `fetch` rejecting) DOES propagate an exception out of
`retrieveMatchesWithContext` — `loadKb` has no try/catch around the
`fetch` call, and `retrieveMatchesWithContext` none around `loadKb`. -/
theorem claim3_counterexample :
    retrieveMatchesWithContext ratSqrt .netError [] 5 5 none = .error () := rfl

theorem retrieveFromKb_qa_len (sqrt : ℚ → ℚ) (kb : List KBItem)
    (qEmb : List ℚ) (qaL cL : Nat) (qT : Option String) :
    (retrieveFromKb sqrt kb qEmb qaL cL qT).qaMatches.length ≤ qaL := by
  unfold retrieveFromKb
  split
  · simp
  · split <;> simp only [List.length_take, List.length_nil] <;> omega

theorem retrieveFromKb_ctx_len (sqrt : ℚ → ℚ) (kb : List KBItem)
    (qEmb : List ℚ) (qaL cL : Nat) (qT : Option String) :
    (retrieveFromKb sqrt kb qEmb qaL cL qT).contextMatches.length ≤ cL := by
  unfold retrieveFromKb
  split
  · simp
  · split <;> split <;> simp only [List.length_take, List.length_nil] <;> omega

/-- C5: the returned partitions respect their limits for all inputs,
and a limit of 0 yields an empty list for that kind; this holds both
for the post-load body and for every successful result of
`retrieveMatchesWithContext`. -/
theorem claim5_limits (sqrt : ℚ → ℚ) (kb : List KBItem) (qEmb : List ℚ)
    (qaL cL : Nat) (qT : Option String) (outcome : FetchOutcome) :
    (retrieveFromKb sqrt kb qEmb qaL cL qT).qaMatches.length ≤ qaL
    ∧ (retrieveFromKb sqrt kb qEmb qaL cL qT).contextMatches.length ≤ cL
    ∧ (retrieveFromKb sqrt kb qEmb 0 cL qT).qaMatches = []
    ∧ (retrieveFromKb sqrt kb qEmb qaL 0 qT).contextMatches = []
    ∧ (∀ res, retrieveMatchesWithContext sqrt outcome qEmb qaL cL qT = .ok res →
        res.qaMatches.length ≤ qaL ∧ res.contextMatches.length ≤ cL) := by
  refine ⟨retrieveFromKb_qa_len sqrt kb qEmb qaL cL qT,
    retrieveFromKb_ctx_len sqrt kb qEmb qaL cL qT,
    List.eq_nil_of_length_eq_zero
      (Nat.le_zero.mp (retrieveFromKb_qa_len sqrt kb qEmb 0 cL qT)),
    List.eq_nil_of_length_eq_zero
      (Nat.le_zero.mp (retrieveFromKb_ctx_len sqrt kb qEmb qaL 0 qT)), ?_⟩
  intro res h
  cases outcome with
  | netError => exact absurd h (by simp [retrieveMatchesWithContext, loadKb, Except.map])
  | httpError =>
    simp only [retrieveMatchesWithContext, loadKb, Except.map, Except.ok.injEq] at h
    exact h ▸ ⟨retrieveFromKb_qa_len sqrt [] qEmb qaL cL qT,
      retrieveFromKb_ctx_len sqrt [] qEmb qaL cL qT⟩
  | badJson =>
    simp only [retrieveMatchesWithContext, loadKb, Except.map, Except.ok.injEq] at h
    exact h ▸ ⟨retrieveFromKb_qa_len sqrt [] qEmb qaL cL qT,
      retrieveFromKb_ctx_len sqrt [] qEmb qaL cL qT⟩
  | nonArrayJson =>
    simp only [retrieveMatchesWithContext, loadKb, Except.map, Except.ok.injEq] at h
    exact h ▸ ⟨retrieveFromKb_qa_len sqrt [] qEmb qaL cL qT,
      retrieveFromKb_ctx_len sqrt [] qEmb qaL cL qT⟩
  | arrayJson items =>
    simp only [retrieveMatchesWithContext, loadKb, Except.map, Except.ok.injEq] at h
    exact h ▸ ⟨retrieveFromKb_qa_len sqrt items qEmb qaL cL qT,
      retrieveFromKb_ctx_len sqrt items qEmb qaL cL qT⟩

/-- A closed instance of C5's last clause at a concrete successful
load. -/
theorem claim5_limits_witness :
    (⟨[], []⟩ : RetrieveResult).qaMatches.length ≤ 5 ∧
      (⟨[], []⟩ : RetrieveResult).contextMatches.length ≤ 5 :=
  (claim5_limits ratSqrt [] [] 5 5 none (.arrayJson [])).2.2.2.2 ⟨[], []⟩ rfl

theorem scoreRowsForQuery_singleton (sqrt : ℚ → ℚ) (x : KBItem)
    (e : List ℚ) (t : Option String) (m : KBKind) :
    scoreRowsForQuery sqrt [x] e t m =
      [scoreRow sqrt e (strToLower (norm (t.getD ""))) m x] := by
  simp [scoreRowsForQuery]

/-- The record used for C10: `kind=qa`, no question at all, a
retrievable answer. -/
def recNoQuestion : KBItem :=
  ⟨some .qa, none, some "We employ 500 licensed clinicians.", none, .absent, none⟩

/-- C10: retrieval eligibility of a QA record depends only on its
answer — a record with an absent question but a usable answer appears
in `qaMatches` (here: as the only match of a one-record corpus). -/
theorem claim10_question_irrelevant :
    recNoQuestion.question = none
    ∧ (retrieveMatchesWithContext ratSqrt (.arrayJson [recNoQuestion]) [] 5 5
          (some "how many clinicians")).map
        (fun res => res.qaMatches.map (fun r => r.answer))
      = .ok ["We employ 500 licensed clinicians."] := by
  refine ⟨rfl, ?_⟩
  have hq : qaPrepared [recNoQuestion] = [prepQa recNoQuestion] := by decide
  have hc : ctxPrepared [recNoQuestion] = [] := by decide
  simp only [retrieveMatchesWithContext, loadKb, Except.map,
    retrieveFromKb, hq, hc, scoreRowsForQuery_singleton]
  congr 1

/-- The retrieval eligibility of a QA record as a function of its raw
`answer` field alone (`qaUsable ∘ prepQa` reads nothing else). -/
def answerUsable (a : Option String) : Bool :=
  qaUsable (prepQa ⟨none, none, a, none, .absent, none⟩)

theorem qaUsable_prepQa (x : KBItem) :
    qaUsable (prepQa x) = answerUsable x.answer := rfl

/-- The 52 ASCII letters, for the single-letter clause of C1. -/
def alphaChars : List Char :=
  "abcdefghijklmnopqrstuvwxyzABCDEFGHIJKLMNOPQRSTUVWXYZ".toList

/-- C1 (amended): every record in `qaMatches` is the scored image of a
corpus record of QA kind whose prepared (vendor-normalized,
whitespace-normalized) answer passes the retrieval filter — non-empty
with trimmed length at least 3.  In particular an answer normalizing
to `"-"`, `"."`, or a single letter is never present.  The
`isGarbageAnswer` predicate, however, is NOT applied at retrieval
(only the Maintenance pass uses it), so garbage answers of length ≥ 3
such as `"N/A"` can appear (see the counterexample). -/
theorem claim1_qa_eligibility (sqrt : ℚ → ℚ) (kb : List KBItem)
    (qEmb : List ℚ) (qaL cL : Nat) (qT : Option String) :
    (∀ r ∈ (retrieveFromKb sqrt kb qEmb qaL cL qT).qaMatches,
      ∃ x ∈ kb, isQaKindB x ∧ qaUsable (prepQa x) ∧
        (prepQa x).answer.getD "" ≠ "" ∧
        3 ≤ (strTrim ((prepQa x).answer.getD "")).length ∧
        r = scoreRow sqrt qEmb (strToLower (norm (qT.getD ""))) .qa (prepQa x))
    ∧ answerUsable (some "-") = false
    ∧ answerUsable (some ".") = false
    ∧ alphaChars.all (fun c => answerUsable (some ⟨[c]⟩) == false) = true := by
  refine ⟨?_, by decide, by decide, by decide⟩
  intro r hr
  by_cases hkb : kb.length = 0
  · rw [retrieveFromKb, if_pos hkb] at hr
    simp at hr
  · rw [retrieveFromKb, if_neg hkb] at hr
    by_cases hq : (qaPrepared kb).length ≠ 0
    · rw [if_pos hq] at hr
      have hr2 : r ∈ scoreRowsForQuery sqrt (qaPrepared kb) qEmb qT .qa :=
        (List.take_sublist _ _).subset hr
      rw [scoreRowsForQuery] at hr2
      have hr3 := List.mem_mergeSort.mp hr2
      obtain ⟨p, hp, rfl⟩ := List.mem_map.mp hr3
      obtain ⟨hp1, hpu⟩ := List.mem_filter.mp hp
      obtain ⟨x, hx, rfl⟩ := List.mem_map.mp hp1
      obtain ⟨hxkb, hxqa⟩ := List.mem_filter.mp hx
      refine ⟨x, hxkb, hxqa, hpu, ?_, ?_, rfl⟩
      · have h1 := hpu
        simp only [qaUsable, Bool.and_eq_true, jsTruthy] at h1
        rcases hans : (prepQa x).answer with _ | a
        · rw [hans] at h1
          simp at h1
        · rw [hans] at h1
          simpa using h1.1.1
      · have h1 := hpu
        simp only [qaUsable, Bool.and_eq_true, decide_eq_true_eq] at h1
        exact h1.2
    · rw [if_neg hq] at hr
      simp at hr

/-- The record refuting C1 as stated: a `kind=qa` record whose answer
is the garbage placeholder `"N/A"`. -/
def recNA : KBItem :=
  ⟨some .qa, some "What is the refund policy", some "N/A", none, .absent, none⟩

/-- C1 counterexample: `"N/A"` satisfies the garbage-answer predicate,
yet the record is returned in `qaMatches` (the retrieval filter only
requires a trimmed length of at least 3, which `"N/A"` meets), so a
`kind=qa` record whose normalized answer satisfies `isGarbageAnswer`
IS present in `qaMatches` for a concrete corpus and query. -/
theorem claim1_counterexample :
    isGarbageAnswer "N/A" = true
    ∧ (retrieveMatchesWithContext ratSqrt (.arrayJson [recNA]) [] 5 5
          (some "refund policy")).map
        (fun res => res.qaMatches.map (fun r => r.answer))
      = .ok ["N/A"] := by
  refine ⟨by decide, ?_⟩
  have hq : qaPrepared [recNA] = [prepQa recNA] := by decide
  have hc : ctxPrepared [recNA] = [] := by decide
  simp only [retrieveMatchesWithContext, loadKb, Except.map,
    retrieveFromKb, hq, hc, scoreRowsForQuery_singleton]
  congr 1

theorem dedupGo_sublist (seen : List String) (l : List KBItem) :
    List.Sublist (dedupGo seen l) l := by
  induction l generalizing seen with
  | nil => simp [dedupGo]
  | cons it rest ih =>
    rw [dedupGo]
    split
    · exact (ih seen).cons it
    · exact (ih (dedupKey it :: seen)).cons₂ it

theorem dedupGo_not_seen (seen : List String) (l : List KBItem) :
    ∀ z ∈ dedupGo seen l, dedupKey z ∉ seen := by
  induction l generalizing seen with
  | nil => simp [dedupGo]
  | cons it rest ih =>
    intro z hz
    rw [dedupGo] at hz
    split at hz
    · exact ih seen z hz
    · rename_i hcon
      rcases List.mem_cons.mp hz with rfl | hz'
      · intro hmem
        exact hcon (List.elem_eq_true_of_mem hmem)
      · intro hmem
        exact ih (dedupKey it :: seen) z hz' (List.mem_cons_of_mem _ hmem)

theorem dedupGo_pairwise (seen : List String) (l : List KBItem) :
    (dedupGo seen l).Pairwise (fun a b => dedupKey a ≠ dedupKey b) := by
  induction l generalizing seen with
  | nil => simp [dedupGo]
  | cons it rest ih =>
    rw [dedupGo]
    split
    · exact ih seen
    · refine List.Pairwise.cons ?_ (ih (dedupKey it :: seen))
      intro z hz heq
      exact dedupGo_not_seen (dedupKey it :: seen) rest z hz
        (heq ▸ List.mem_cons_self _ _)

theorem dedupGo_complete (seen : List String) (l : List KBItem) :
    ∀ y ∈ l, dedupKey y ∉ seen →
      ∃ z ∈ dedupGo seen l, dedupKey z = dedupKey y := by
  induction l generalizing seen with
  | nil => simp
  | cons it rest ih =>
    intro y hy hns
    rw [dedupGo]
    split
    · rename_i hcon
      rcases List.mem_cons.mp hy with rfl | hy'
      · exact absurd (List.elem_iff.mp hcon) hns
      · exact ih seen y hy' hns
    · rcases List.mem_cons.mp hy with heq | hy'
      · exact ⟨it, List.mem_cons_self _ _, by rw [heq]⟩
      · by_cases hk : dedupKey y = dedupKey it
        · exact ⟨it, List.mem_cons_self _ _, hk.symm⟩
        · obtain ⟨z, hz, hzk⟩ := ih (dedupKey it :: seen) y hy'
            (by
              intro hmem
              rcases List.mem_cons.mp hmem with h | h
              · exact hk h
              · exact hns h)
          exact ⟨z, List.mem_cons_of_mem _ hz, hzk⟩

theorem dedupGo_first_wins (seen : List String) (l : List KBItem) :
    ∀ z ∈ dedupGo seen l,
      l.find? (fun y => dedupKey y == dedupKey z) = some z := by
  induction l generalizing seen with
  | nil => simp [dedupGo]
  | cons it rest ih =>
    intro z hz
    rw [dedupGo] at hz
    split at hz
    · rename_i hcon
      have hne : dedupKey it ≠ dedupKey z := by
        intro heq
        exact dedupGo_not_seen seen rest z hz (heq ▸ List.elem_iff.mp hcon)
      rw [List.find?_cons_of_neg _ (by simpa using hne)]
      exact ih seen z hz
    · rcases List.mem_cons.mp hz with rfl | hz'
      · rw [List.find?_cons_of_pos _ (by simp)]
      · have hne : dedupKey it ≠ dedupKey z := by
          intro heq
          exact dedupGo_not_seen (dedupKey it :: seen) rest z hz'
            (heq ▸ List.mem_cons_self _ _)
        rw [List.find?_cons_of_neg _ (by simpa using hne)]
        exact ih (dedupKey it :: seen) z hz'

/-- The two records of C8's dedup scenario: identical question and
answer, different `source` fields. -/
def recDupA : KBItem :=
  ⟨some .qa, some "Q1", some "Same answer text", none, .absent, some "upload-a.csv"⟩

/-- Companion of `recDupA` with a different provenance field. -/
def recDupB : KBItem :=
  ⟨some .qa, some "Q1", some "Same answer text", none, .absent, some "upload-b.csv"⟩

/-- C8 (amended): `sanitizeKb` (without the optional classifier pass)
deduplicates the filtered QA records by the concatenated string key
`lower(question) + "|" + lower(answer)` — the first occurrence of each
key is kept, the kept records form a sublist (stable order) of the
filtered records, kept keys are pairwise distinct, and every filtered
record's key has a surviving representative.  This agrees with
dedup-by-the-pair whenever no question contains a `"|"` (see the
counterexample for the disagreement), and two records differing only
in `source` do collapse to one. -/
theorem claim8_sanitize_dedup (items : List KBItem) (mal : Option Nat)
    (key : Option String) (resp : Nat → Option (List Bool)) :
    (sanitizeKb items mal false key resp =
      .ok (dedupGo [] (sanitizePre (mal.getD 8) items) ++
        items.filter isContextKindB))
    ∧ List.Sublist (dedupGo [] (sanitizePre (mal.getD 8) items))
        (sanitizePre (mal.getD 8) items)
    ∧ (dedupGo [] (sanitizePre (mal.getD 8) items)).Pairwise
        (fun a b => dedupKey a ≠ dedupKey b)
    ∧ (∀ y ∈ sanitizePre (mal.getD 8) items,
        ∃ z ∈ dedupGo [] (sanitizePre (mal.getD 8) items),
          dedupKey z = dedupKey y)
    ∧ (∀ z ∈ dedupGo [] (sanitizePre (mal.getD 8) items),
        (sanitizePre (mal.getD 8) items).find?
          (fun y => dedupKey y == dedupKey z) = some z)
    ∧ sanitizeKb [recDupA, recDupB] none false none (fun _ => none) = .ok [
        ⟨some .qa, some "Q1", some "Same answer text", none, .absent,
          some "upload-a.csv"⟩] := by
  refine ⟨rfl, dedupGo_sublist _ _, dedupGo_pairwise _ _,
    fun y hy => dedupGo_complete [] _ y hy (by simp),
    fun z hz => dedupGo_first_wins [] _ z hz, rfl⟩

/-- A closed instance of C8's completeness clause (discharges its
membership hypothesis at a concrete input). -/
theorem claim8_sanitize_dedup_witness :
    ∃ z ∈ dedupGo [] (sanitizePre 8 [recDupA, recDupB]),
      dedupKey z = dedupKey (prepQa recDupB) := by
  have h := (claim8_sanitize_dedup [recDupA, recDupB] none none
    (fun _ => none)).2.2.2.1
  have hmem : prepQa recDupB ∈ sanitizePre 8 [recDupA, recDupB] := by decide
  simpa using h (prepQa recDupB) hmem

/-- C8 counterexample: the dedup key is the `"|"`-joined string, not
the pair — two records with DIFFERENT (question, answer) pairs (even
after normalization) collide on the key `"x|y|longanswer1"` and are
merged, so `sanitizeKb` does not deduplicate exactly by the pair. -/
theorem claim8_counterexample :
    (norm "x|y", strToLower (normalizeVendorNames (norm "longanswer1"))) ≠
        (norm "x", strToLower (normalizeVendorNames (norm "y|longanswer1")))
    ∧ sanitizeKb
        [⟨some .qa, some "x|y", some "longanswer1", none, .absent, none⟩,
         ⟨some .qa, some "x", some "y|longanswer1", none, .absent, none⟩]
        none false none (fun _ => none) =
      .ok [⟨some .qa, some "x|y", some "longanswer1", none, .absent, none⟩] := by
  constructor
  · decide
  · rfl

theorem getD_map_true (l : List KBItem) (i : Nat) (h : i < l.length) :
    (l.map (fun _ => true)).getD i false = true := by
  have h' : i < (l.map fun _ => true).length := by simpa using h
  rw [List.getD_eq_getElem _ _ h']
  simp

theorem fst_lt_of_mem_enum {l : List KBItem} {p : Nat × KBItem}
    (h : p ∈ l.enum) : p.1 < l.length := by
  have := List.mem_enum_iff_getElem?.mp h
  have h2 := List.getElem?_eq_some.mp this
  exact h2.1

theorem filter_keep_all (l : List KBItem) :
    ((l.enum.filter
        (fun p => (l.map (fun _ => true)).getD p.1 false)).map
      (fun p => p.2)) = l := by
  rw [List.filter_eq_self.mpr]
  · rw [List.enum_eq_enumFrom, List.enumFrom_map_snd]
  · intro p hp
    exact getD_map_true l p.1 (fst_lt_of_mem_enum hp)

theorem kept_sublist (slice : List KBItem) (ds : List Bool) :
    List.Sublist
      ((slice.enum.filter (fun p => ds.getD p.1 false)).map (fun p => p.2))
      slice := by
  have h1 : List.Sublist (slice.enum.filter (fun p => ds.getD p.1 false))
      slice.enum := List.filter_sublist _
  have h2 := h1.map (fun p : Nat × KBItem => p.2)
  rw [List.enum_eq_enumFrom, List.enumFrom_map_snd] at h2
  exact h2

theorem gptFilterGo_zero_cons (resp : Nat → Option (List Bool)) (ci : Nat)
    (a : KBItem) (as : List KBItem) :
    gptFilterGo resp 0 ci (a :: as) = a :: as := rfl

theorem gptFilterGo_succ_cons (resp : Nat → Option (List Bool))
    (fuel ci : Nat) (a : KBItem) (as : List KBItem) :
    gptFilterGo resp (fuel + 1) ci (a :: as) =
      (((a :: as).take 50).enum.filter (fun p =>
          (match resp ci with
            | none => ((a :: as).take 50).map (fun _ => true)
            | some ds => ds).getD p.1 false)).map (fun p => p.2)
        ++ gptFilterGo resp fuel (ci + 1) ((a :: as).drop 50) := rfl

theorem gptFilterGo_sublist (resp : Nat → Option (List Bool)) :
    ∀ (fuel ci : Nat) (rest : List KBItem),
      List.Sublist (gptFilterGo resp fuel ci rest) rest := by
  intro fuel
  induction fuel with
  | zero =>
    intro ci rest
    cases rest with
    | nil => simp [gptFilterGo]
    | cons a as => rw [gptFilterGo_zero_cons]
  | succ fuel ih =>
    intro ci rest
    cases rest with
    | nil => simp [gptFilterGo]
    | cons a as =>
      rw [gptFilterGo_succ_cons]
      have hk : List.Sublist
          ((((a :: as).take 50).enum.filter
              (fun p =>
                (match resp ci with
                  | none => ((a :: as).take 50).map (fun _ => true)
                  | some ds => ds).getD p.1 false)).map (fun p => p.2))
          ((a :: as).take 50) := kept_sublist _ _
      have hr := ih (ci + 1) ((a :: as).drop 50)
      have := hk.append hr
      rw [List.take_append_drop] at this
      exact this

theorem gptFilterGo_all_none (resp : Nat → Option (List Bool))
    (hresp : ∀ i, resp i = none) :
    ∀ (fuel ci : Nat) (rest : List KBItem), rest.length ≤ fuel →
      gptFilterGo resp fuel ci rest = rest := by
  intro fuel
  induction fuel with
  | zero =>
    intro ci rest hf
    rw [List.eq_nil_of_length_eq_zero (Nat.le_zero.mp hf)]
    simp [gptFilterGo]
  | succ fuel ih =>
    intro ci rest hf
    cases rest with
    | nil => simp [gptFilterGo]
    | cons a as =>
      rw [gptFilterGo_succ_cons, hresp ci]
      have hkeep := filter_keep_all ((a :: as).take 50)
      rw [hkeep]
      rw [ih (ci + 1) ((a :: as).drop 50)
        (by simp only [List.length_drop, List.length_cons] at hf ⊢; omega)]
      exact List.take_append_drop _ _

theorem gptFilterGo_chunk_none (resp : Nat → Option (List Bool)) :
    ∀ (k fuel ci : Nat) (rest : List KBItem), rest.length ≤ fuel →
      resp (ci + k) = none →
      List.Sublist ((rest.drop (50 * k)).take 50)
        (gptFilterGo resp fuel ci rest) := by
  intro k
  induction k with
  | zero =>
    intro fuel ci rest hf hresp
    cases fuel with
    | zero =>
      rw [List.eq_nil_of_length_eq_zero (Nat.le_zero.mp hf)]
      simp
    | succ fuel =>
      cases rest with
      | nil => simp
      | cons a as =>
        rw [gptFilterGo_succ_cons]
        rw [Nat.add_zero] at hresp
        rw [hresp]
        rw [Nat.mul_zero, List.drop_zero]
        rw [filter_keep_all ((a :: as).take 50)]
        exact List.sublist_append_left _ _
  | succ k ih =>
    intro fuel ci rest hf hresp
    cases fuel with
    | zero =>
      rw [List.eq_nil_of_length_eq_zero (Nat.le_zero.mp hf)]
      simp
    | succ fuel =>
      cases rest with
      | nil => simp
      | cons a as =>
        rw [gptFilterGo_succ_cons]
        have hd : (a :: as).drop (50 * (k + 1)) =
            ((a :: as).drop 50).drop (50 * k) := by
          rw [List.drop_drop]
          congr 1
          ring
        rw [hd]
        have h' : resp (ci + 1 + k) = none := by
          rw [Nat.add_assoc, Nat.add_comm 1 k]
          exact hresp
        have hlen : ((a :: as).drop 50).length ≤ fuel := by
          simp only [List.length_drop, List.length_cons] at hf ⊢
          omega
        exact List.sublist_append_of_sublist_right (ih fuel (ci + 1) _ hlen h')

/-- C9 (amended): the value the classifier pass (`gptFilter`) resolves
to fails open on parse failure — when `JSON.parse` of a chunk's
response throws (`resp ci = none`) that whole chunk survives, if every
chunk's response is unparseable the records pass through unchanged,
and the pass never adds or reorders records.  However, a record can
also be dropped WITHOUT an explicitly parsed `false` decision: a
response that parses to an array shorter than the chunk drops the
records past its end (see the counterexample).  Moreover the
Maintenance operation never actually returns that value: with the
classifier enabled (a truthy key), `sanitizeKb` spreads the un-awaited
Promise of the `async` `gptFilter` and throws a `TypeError`, so the
classifier-enabled path raises instead of producing a sanitized
corpus. -/
theorem claim9_classifier_fail_open (resp : Nat → Option (List Bool))
    (items : List KBItem) (ci : Nat) (mal : Option Nat) (kstr : String) :
    List.Sublist (gptFilter resp items) items
    ∧ (resp ci = none →
        List.Sublist ((items.drop (50 * ci)).take 50) (gptFilter resp items))
    ∧ ((∀ i, resp i = none) → gptFilter resp items = items)
    ∧ (kstr ≠ "" →
        sanitizeKb items mal true (some kstr) resp = .error ()) := by
  refine ⟨gptFilterGo_sublist resp items.length 0 items,
    fun h => gptFilterGo_chunk_none resp ci items.length 0 items
      (Nat.le_refl _) (by simpa using h),
    fun h => gptFilterGo_all_none resp h items.length 0 items (Nat.le_refl _),
    fun hk => ?_⟩
  have ht : jsTruthy (some kstr) = true := by
    simp [jsTruthy]
    exact hk
  rw [sanitizeKb]
  rw [ht]
  rfl

/-- A closed instance of C9's clauses: with an unparseable response
for every chunk, a one-record corpus passes through the classifier
pass unchanged; and with the classifier enabled on a concrete truthy
key, `sanitizeKb` raises. -/
theorem claim9_classifier_fail_open_witness :
    List.Sublist ((([recNA] : List KBItem).drop 0).take 50)
        (gptFilter (fun _ => none) [recNA])
    ∧ gptFilter (fun _ => none) [recNA] = [recNA]
    ∧ sanitizeKb [recNA] none true (some "k") (fun _ => none) = .error () :=
  ⟨by
    have h := (claim9_classifier_fail_open (fun _ => none) [recNA] 0 none "k").2.1 rfl
    simpa using h,
   (claim9_classifier_fail_open (fun _ => none) [recNA] 0 none "k").2.2.1
     (fun _ => rfl),
   (claim9_classifier_fail_open (fun _ => none) [recNA] 0 none "k").2.2.2
     (by decide)⟩

/-- C9 counterexample: a classifier response that parses successfully
to the EMPTY boolean array (`"[]"`) contains no per-record `false`
decision at all, yet every record of the chunk is dropped
(`decisions[j]` is `undefined`, hence falsy, for every `j`) — refuting
"records are dropped only when an explicitly parsed per-record
decision is false". -/
theorem claim9_counterexample :
    (∀ b ∈ ([] : List Bool), b = true)
    ∧ gptFilter (fun _ => some []) [recNA] = [] := by
  refine ⟨by simp, by decide⟩

theorem scoreLe_trans : ∀ (a b c : KBScored),
    scoreLe a b → scoreLe b c → scoreLe a c := by
  intro a b c hab hbc
  simp only [scoreLe, decide_eq_true_eq] at hab hbc ⊢
  exact le_trans hbc hab

theorem scoreLe_total : ∀ (a b : KBScored), scoreLe a b || scoreLe b a := by
  intro a b
  simp only [scoreLe]
  rcases le_total b.score a.score with h | h <;> simp [h]

theorem mergeSort_scoreLe_filter (l : List KBScored) (s : ℚ) :
    (l.mergeSort scoreLe).filter (fun r => r.score == s) =
      l.filter (fun r => r.score == s) := by
  have hpair : (l.filter (fun r => r.score == s)).Pairwise
      (fun a b => scoreLe a b = true) := by
    apply List.pairwise_of_forall_mem_list
    intro a ha b hb
    have ha' : a.score = s := by
      have := (List.mem_filter.mp ha).2
      exact beq_iff_eq.mp this
    have hb' : b.score = s := by
      have := (List.mem_filter.mp hb).2
      exact beq_iff_eq.mp this
    simp only [scoreLe, decide_eq_true_eq, ha', hb']
    exact le_refl s
  have h1 := List.sublist_mergeSort scoreLe_trans scoreLe_total hpair
    (List.filter_sublist l)
  have hself : (l.filter (fun r => r.score == s)).filter
      (fun r => r.score == s) = l.filter (fun r => r.score == s) :=
    List.filter_eq_self.mpr (fun a ha => (List.mem_filter.mp ha).2)
  have h2 := h1.filter (fun r => r.score == s)
  rw [hself] at h2
  have hperm := (List.mergeSort_perm l scoreLe).filter (fun r => r.score == s)
  exact (h2.eq_of_length hperm.length_eq.symm).symm

theorem scoreRowsForQuery_sorted (sqrt : ℚ → ℚ) (rows : List KBItem)
    (qEmb : List ℚ) (qT : Option String) (m : KBKind) :
    (scoreRowsForQuery sqrt rows qEmb qT m).Pairwise
      (fun u v => v.score ≤ u.score) := by
  rw [scoreRowsForQuery]
  refine List.Pairwise.imp ?_
    (List.sorted_mergeSort scoreLe_trans scoreLe_total _)
  intro a b h
  simpa [scoreLe] using h

theorem scoreRowsForQuery_stable (sqrt : ℚ → ℚ) (rows : List KBItem)
    (qEmb : List ℚ) (qT : Option String) (m : KBKind) (s : ℚ) :
    (scoreRowsForQuery sqrt rows qEmb qT m).filter (fun r => r.score == s) =
      (rows.map
        (scoreRow sqrt qEmb (strToLower (norm (qT.getD ""))) m)).filter
        (fun r => r.score == s) := by
  rw [scoreRowsForQuery]
  exact mergeSort_scoreLe_filter _ s

/-- C4: retrieval is deterministic — the result is a pure function of
the loaded corpus and query (stated as literal reflexivity of the
model), each returned partition is a prefix (up to its limit) of the
sorted scored rows, the sort is descending by score, and it is stable:
for every score value `s`, the rows scoring `s` appear in the sorted
output in exactly the order in which they appear in the prepared
corpus (so equal-score ties are broken by original corpus order). -/
theorem claim4_determinism_stability (sqrt : ℚ → ℚ) (kb : List KBItem)
    (qEmb : List ℚ) (qaL cL : Nat) (qT : Option String) :
    retrieveFromKb sqrt kb qEmb qaL cL qT = retrieveFromKb sqrt kb qEmb qaL cL qT
    ∧ (retrieveFromKb sqrt kb qEmb qaL cL qT).qaMatches =
        (scoreRowsForQuery sqrt (qaPrepared kb) qEmb qT .qa).take
          (min qaL (qaPrepared kb).length)
    ∧ (retrieveFromKb sqrt kb qEmb qaL cL qT).contextMatches =
        (scoreRowsForQuery sqrt (ctxPrepared kb) qEmb qT .context).take
          (min cL (ctxPrepared kb).length)
    ∧ (scoreRowsForQuery sqrt (qaPrepared kb) qEmb qT .qa).Pairwise
        (fun u v => v.score ≤ u.score)
    ∧ (scoreRowsForQuery sqrt (ctxPrepared kb) qEmb qT .context).Pairwise
        (fun u v => v.score ≤ u.score)
    ∧ (∀ s : ℚ,
        (scoreRowsForQuery sqrt (qaPrepared kb) qEmb qT .qa).filter
            (fun r => r.score == s) =
          ((qaPrepared kb).map
            (scoreRow sqrt qEmb (strToLower (norm (qT.getD ""))) .qa)).filter
            (fun r => r.score == s))
    ∧ (∀ s : ℚ,
        (scoreRowsForQuery sqrt (ctxPrepared kb) qEmb qT .context).filter
            (fun r => r.score == s) =
          ((ctxPrepared kb).map
            (scoreRow sqrt qEmb (strToLower (norm (qT.getD "")))
              .context)).filter
            (fun r => r.score == s)) := by
  refine ⟨rfl, ?_, ?_,
    scoreRowsForQuery_sorted sqrt (qaPrepared kb) qEmb qT .qa,
    scoreRowsForQuery_sorted sqrt (ctxPrepared kb) qEmb qT .context,
    fun s => scoreRowsForQuery_stable sqrt (qaPrepared kb) qEmb qT .qa s,
    fun s => scoreRowsForQuery_stable sqrt (ctxPrepared kb) qEmb qT .context s⟩
  · rw [retrieveFromKb]
    split
    · rename_i hkb
      rw [List.eq_nil_of_length_eq_zero hkb]
      have : qaPrepared ([] : List KBItem) = [] := rfl
      rw [this]
      simp [scoreRowsForQuery]
    · split
      · rfl
      · rename_i hq
        have hq' : qaPrepared kb = [] := by
          simp at hq
          exact hq
        rw [hq']
        simp [scoreRowsForQuery]
  · rw [retrieveFromKb]
    split
    · rename_i hkb
      rw [List.eq_nil_of_length_eq_zero hkb]
      have : ctxPrepared ([] : List KBItem) = [] := rfl
      rw [this]
      simp [scoreRowsForQuery]
    · split <;> split
      · rfl
      · rename_i hc
        have hc' : ctxPrepared kb = [] := by
          simp at hc
          exact hc
        rw [hc']
        simp [scoreRowsForQuery]
      · rfl
      · rename_i hc
        have hc' : ctxPrepared kb = [] := by
          simp at hc
          exact hc
        rw [hc']
        simp [scoreRowsForQuery]

theorem retrieve_recNA_qaMatches :
    (retrieveFromKb ratSqrt [recNA] [] 5 5 (some "refund policy")).qaMatches =
      [scoreRow ratSqrt []
        (strToLower (norm ((some "refund policy" : Option String).getD "")))
        .qa (prepQa recNA)] := by
  have hq : qaPrepared [recNA] = [prepQa recNA] := by decide
  simp only [retrieveFromKb, hq, scoreRowsForQuery_singleton]
  rfl

/-- A closed instance of C1's eligibility clause at a concrete corpus
and query (discharges the membership hypothesis of
`claim1_qa_eligibility`). -/
theorem claim1_qa_eligibility_witness :
    ∃ x ∈ [recNA], isQaKindB x ∧ qaUsable (prepQa x) ∧
      (prepQa x).answer.getD "" ≠ "" ∧
      3 ≤ (strTrim ((prepQa x).answer.getD "")).length ∧
      scoreRow ratSqrt []
          (strToLower (norm ((some "refund policy" : Option String).getD "")))
          .qa (prepQa recNA) =
        scoreRow ratSqrt []
          (strToLower (norm ((some "refund policy" : Option String).getD "")))
          .qa (prepQa x) := by
  apply (claim1_qa_eligibility ratSqrt [recNA] [] 5 5 (some "refund policy")).1
  rw [retrieve_recNA_qaMatches]
  exact List.mem_singleton.mpr rfl
